import Mathlib

/-!
Verification of the secure_fl single-round secure-aggregation core.

This file gives a shallow embedding of the MK-CKKS + pairwise-masking
aggregation protocol implemented in `masking.cpp`, `mk_ckks.cpp`,
`client.cpp` and `server.cpp`, and proves the specified properties of the
embedded definitions.

Modelling conventions:
* A `DCRTPoly` (RNS polynomial in NTT/evaluation representation) is a
  function assigning to each tower `t` and each slot a value in
  `ZMod (q t)`; RNS ring arithmetic is exactly componentwise arithmetic
  modulo each tower prime, so bit-exact equality of ring elements is
  equality in this type.
* External primitives (OpenSSL ECDH, ChaCha20 keystream, the OpenFHE CKKS
  packed encoder/decoder and the NTT transform) are taken as parameters of
  the development; their contracts from the specification appear as
  hypotheses where a theorem needs them.
* Random sampling is modelled by explicitly passing the drawn values: a
  discrete-Gaussian generator is a function from the standard deviation
  and a draw index to a ring element.
-/

namespace SecureFL

/-- RNS ring parameters provided by the external ring primitive: tower
count `T`, ring dimension `N`, and the modulus `q t` of each tower. -/
structure RingParams where
  T : ℕ
  N : ℕ
  q : Fin T → ℕ

/-- A polynomial of the RNS ring in NTT/evaluation representation: for each
tower `t`, a vector of `N` values in `ZMod (q t)`. -/
abbrev DCRTPoly (P : RingParams) : Type :=
  (t : Fin P.T) → Fin P.N → ZMod (P.q t)

/-- Polynomial representation domain (`Format` in the source). -/
inductive PolyFormat where
  | COEFFICIENT : PolyFormat
  | EVALUATION : PolyFormat
deriving DecidableEq

/-- A ring element tagged with its current representation domain, as held
by the source's `DCRTPoly` objects around `SwitchFormat` calls. -/
structure FPoly (P : RingParams) where
  fmt : PolyFormat
  val : DCRTPoly P

/-- MK-CKKS public key `(b, a)` (`common.h`). -/
structure MKeyGenPublicKey (P : RingParams) where
  b : DCRTPoly P
  a : DCRTPoly P

/-- MK-CKKS secret key `s` (`common.h`). -/
structure MKeyGenSecretKey (P : RingParams) where
  s : DCRTPoly P

/-- MK-CKKS key pair (`common.h`). -/
structure MKeyGenKeyPair (P : RingParams) where
  pk : MKeyGenPublicKey P
  sk : MKeyGenSecretKey P

/-- Ciphertext `(c0, c1)`; in this protocol `c1` carries the client's
decryption share `d` (`common.h`). -/
structure MKCiphertext (P : RingParams) where
  c0 : DCRTPoly P
  c1 : DCRTPoly P

/-- The share a client sends to the server (`common.h`). -/
structure ClientShare (P : RingParams) where
  c0 : DCRTPoly P
  d_masked : DCRTPoly P

/-- Per-round client state used by `prepareShareForServer` (`client.h`):
id, the ECDH key handle and its published serialization, the data vector,
and the client's two Gaussian draw streams (keygen and encryption). -/
structure ClientSpec (P : RingParams) (SK PK : Type) where
  id : ℕ
  ecdhSK : SK
  ecdhPK : PK
  data : List ℚ
  kgDgg : ℚ → ℕ → DCRTPoly P
  encDgg : ℚ → ℕ → DCRTPoly P

/-- Elementwise sum of a list of rational vectors of length `d` (the
plaintext sum `∑ x_i` the protocol is meant to recover). -/
def sumVecs (d : ℕ) (l : List (List ℚ)) : List ℚ :=
  l.foldr (fun v acc => List.zipWith (· + ·) v acc) (List.replicate d 0)

/-- Infinity-norm distance of two rational vectors. -/
def linfDist (a b : List ℚ) : ℚ :=
  (List.zipWith (fun x y => |x - y|) a b).foldr max 0

/-- Whether an `Except` value is a success. -/
def exceptIsOk {ε α : Type} : Except ε α → Bool
  | Except.ok _ => true
  | Except.error _ => false

section Engine

variable {P : RingParams} {SK PK : Type}

/-- Standard deviation of the decryption-smudging Gaussian, the literal
`4.0` of `DiscreteGaussianGeneratorImpl dgg_large_variance(4.0)` in
`mk_ckks.cpp`. -/
def smudgingSigma : ℚ := 4

/-- Modelled from the spec: the keygen/encryption noise standard deviation
of the external library's default CKKS discrete Gaussian (OpenFHE default
distribution parameter 3.19); the source draws keygen noise from
`cryptoParams->GetDiscreteGaussianGenerator()` without overriding it. -/
def ckksDefaultSigma : ℚ := 319 / 100

/-- `KeyGenSingle` of `mk_ckks.cpp`: draw `s` and `e` from the context
discrete Gaussian and return `({b, a}, s)` with `b = -s*a + e`.  `crs_a`
is the CRS; `dgg σ k` is the `k`-th draw from a Gaussian of parameter
`σ`; `sigmaCtx` is the context's Gaussian parameter. -/
def KeyGenSingle (crs_a : DCRTPoly P) (sigmaCtx : ℚ) (dgg : ℚ → ℕ → DCRTPoly P) :
    MKeyGenKeyPair P :=
  let s_i := dgg sigmaCtx 0
  let e_i := dgg sigmaCtx 1
  let b_i := -s_i * crs_a + e_i
  { pk := { b := b_i, a := crs_a }, sk := { s := s_i } }

variable (ntt : DCRTPoly P → DCRTPoly P)

/-- The `m_ntt` step of `Encrypt` in `mk_ckks.cpp`: `SwitchFormat` (the
external NTT transform) is applied exactly when the plaintext is still in
coefficient representation. -/
def toEval (m : FPoly P) : DCRTPoly P :=
  match m.fmt with
  | PolyFormat.COEFFICIENT => ntt m.val
  | PolyFormat.EVALUATION => m.val

/-- `Encrypt` of `mk_ckks.cpp`: the fused encrypt + decryption-share
computation.  Draws `v`, `e0`, `e1` from the context Gaussian, converts
`m` to evaluation form if needed, computes `c0 = v*b + m + e0`, the
intermediate `c1 = v*a + e1`, draws the smudging noise `e_star` from a
Gaussian of parameter `4.0`, and returns `c1` replaced by the share
`d = (v*a + e1)*s + e_star`. -/
def Encrypt (pk : MKeyGenPublicKey P) (sk : MKeyGenSecretKey P) (m : FPoly P)
    (sigmaCtx : ℚ) (dgg : ℚ → ℕ → DCRTPoly P) : MKCiphertext P :=
  let v := dgg sigmaCtx 0
  let e0 := dgg sigmaCtx 1
  let e1 := dgg sigmaCtx 2
  let m_ntt := toEval ntt m
  let c0 := v * pk.b + m_ntt + e0
  let intermediate_c1 := v * pk.a + e1
  let e_star := dgg smudgingSigma 3
  { c0 := c0, c1 := intermediate_c1 * sk.s + e_star }

variable (libDecode : DCRTPoly P → ℕ → List ℚ)

/-- `Decode` of `mk_ckks.cpp`: build a library ciphertext whose elements
are `{finalPoly, 0}` and run the library decrypt-then-decode under a
freshly generated key.  The external library's `Decrypt` of a two-element
ciphertext `{c0, c1}` under secret `s` recovers the polynomial
`c0 + c1 * s`, which `libDecode` then turns into `dataSize` reals. -/
def Decode (finalPoly : DCRTPoly P) (dataSize : ℕ) (tempSK : DCRTPoly P) : List ℚ :=
  let c1_zero : DCRTPoly P := 0
  libDecode (finalPoly + c1_zero * tempSK) dataSize

variable (ecdhShared : SK → PK → List ℕ) (chacha : List ℕ → ℕ → ℕ)

/-- The reduced candidate coefficient of `PRGToDCRTPoly` in `masking.cpp`:
the 64-bit keystream word at flat index `t*N + j` (the source walks the
words tower by tower through `uints_offset`), reduced modulo the tower
modulus `q t`.  `chacha seed k` is the `k`-th little-endian 64-bit word of
the ChaCha20 keystream under key `seed`, zero nonce and zero counter. -/
def PRGCoeff (seed : List ℕ) (t : Fin P.T) (j : Fin P.N) : ℕ :=
  chacha seed (t.val * P.N + j.val) % P.q t

/-- `PRGToDCRTPoly` of `masking.cpp`: expand a seed into a full ring
element, one reduced keystream word per tower slot, assembled in
evaluation format. -/
def PRGToDCRTPoly (seed : List ℕ) : DCRTPoly P :=
  fun t j => ((PRGCoeff (P := P) chacha seed t j : ℕ) : ZMod (P.q t))

/-- `GenerateMask` of `masking.cpp`: fold over the public-key directory
(`std::map` iteration), skipping the own id; for each peer derive the
shared secret, expand it with the PRG, and subtract the result when
`myId < peerId`, add it when `myId > peerId`.  The accumulator starts at
the zero ring element. -/
def GenerateMask (myId : ℕ) (myKeys : SK) (allPublicKeys : List (ℕ × PK)) :
    DCRTPoly P :=
  allPublicKeys.foldl
    (fun final_mask e =>
      if myId = e.1 then final_mask
      else
        let sharedSecret := ecdhShared myKeys e.2
        let p_ij := PRGToDCRTPoly (P := P) chacha sharedSecret
        if myId < e.1 then final_mask - p_ij else final_mask + p_ij)
    0

/-- The contribution of one directory entry to `GenerateMask`: zero for
the own id, minus the PRG expansion of the pairwise secret when the own
id is smaller, plus it when the own id is larger. -/
def maskTerm (myId : ℕ) (myKeys : SK) (e : ℕ × PK) : DCRTPoly P :=
  if myId = e.1 then 0
  else if myId < e.1 then -PRGToDCRTPoly (P := P) chacha (ecdhShared myKeys e.2)
  else PRGToDCRTPoly (P := P) chacha (ecdhShared myKeys e.2)

variable (ecdhSharedE : SK → PK → Except String (List ℕ))

/-- `GenerateMask` of `masking.cpp` with its failure channel: inside the
loop, `DeserializePublicKey` and `ComputeSharedSecret` can throw (modelled
by `ecdhSharedE` returning an error), which aborts the whole call. -/
def GenerateMaskE (myId : ℕ) (myKeys : SK) :
    List (ℕ × PK) → DCRTPoly P → Except String (DCRTPoly P)
  | [], final_mask => Except.ok final_mask
  | e :: rest, final_mask =>
    if myId = e.1 then GenerateMaskE myId myKeys rest final_mask
    else
      match ecdhSharedE myKeys e.2 with
      | Except.error msg => Except.error msg
      | Except.ok sharedSecret =>
        let p_ij := PRGToDCRTPoly (P := P) chacha sharedSecret
        GenerateMaskE myId myKeys rest
          (if myId < e.1 then final_mask - p_ij else final_mask + p_ij)

variable (encode : List ℚ → DCRTPoly P)

/-- `Client::prepareShareForServer` of `client.cpp` (with the keys the
client generated in `generateKeys` from the CRS): encode the data, run the
fused `Encrypt`, generate the mask from the directory, and emit
`(c0, d_masked = c1 + mask)`.  `encodeVector` returns the packed-encoded
element already in evaluation format. -/
def prepareShareForServer (crs_a : DCRTPoly P) (sigmaCtx : ℚ)
    (c : ClientSpec P SK PK) (allPublicKeys : List (ℕ × PK)) : ClientShare P :=
  let keys := KeyGenSingle crs_a sigmaCtx c.kgDgg
  let encoded_poly : FPoly P := { fmt := PolyFormat.EVALUATION, val := encode c.data }
  let ciphertext := Encrypt ntt keys.pk keys.sk encoded_poly sigmaCtx c.encDgg
  let mask := GenerateMask (P := P) ecdhShared chacha c.id c.ecdhSK allPublicKeys
  { c0 := ciphertext.c0, d_masked := ciphertext.c1 + mask }

/-- `Client::prepareShareForServer` with the mask-generation failure
channel made explicit (an exception from `GenerateMask` propagates out of
the call). -/
def prepareShareForServerE (crs_a : DCRTPoly P) (sigmaCtx : ℚ)
    (c : ClientSpec P SK PK) (allPublicKeys : List (ℕ × PK)) :
    Except String (ClientShare P) :=
  let keys := KeyGenSingle crs_a sigmaCtx c.kgDgg
  let encoded_poly : FPoly P := { fmt := PolyFormat.EVALUATION, val := encode c.data }
  let ciphertext := Encrypt ntt keys.pk keys.sk encoded_poly sigmaCtx c.encDgg
  (GenerateMaskE (P := P) chacha ecdhSharedE c.id c.ecdhSK allPublicKeys 0).map
    fun mask => { c0 := ciphertext.c0, d_masked := ciphertext.c1 + mask }

/-- The overall noise a client's share contributes beyond its encoded
plaintext: `v*e + e0 + e1*s + e_star`, with `s`, `e` the client's keygen
draws and `v`, `e0`, `e1`, `e_star` its encryption draws. -/
def clientNoise (sigmaCtx : ℚ) (c : ClientSpec P SK PK) : DCRTPoly P :=
  c.encDgg sigmaCtx 0 * c.kgDgg sigmaCtx 1 + c.encDgg sigmaCtx 1 +
    c.encDgg sigmaCtx 2 * c.kgDgg sigmaCtx 0 + c.encDgg smudgingSigma 3

/-- `Server::collectShare` of `server.cpp`: append to the accumulator. -/
def collectShare (m_clientShares : List (ClientShare P)) (share : ClientShare P) :
    List (ClientShare P) :=
  m_clientShares ++ [share]

/-- `Server::aggregateShares` of `server.cpp`: throw on an empty
accumulator, otherwise sum all `c0` components, sum all `d_masked`
components and return the sum of the two. -/
def aggregateShares (m_clientShares : List (ClientShare P)) :
    Except String (DCRTPoly P) :=
  match m_clientShares with
  | [] => Except.error "No client shares to aggregate."
  | s0 :: rest =>
    let result_c0 := rest.foldl (fun acc sh => acc + sh.c0) s0.c0
    let result_d_masked := rest.foldl (fun acc sh => acc + sh.d_masked) s0.d_masked
    Except.ok (result_c0 + result_d_masked)

/-- `Server::getFinalResult` of `server.cpp`: aggregate the collected
shares (an exception propagates) and decode the final polynomial to
`dataSize` reals. -/
def getFinalResult (m_clientShares : List (ClientShare P)) (dataSize : ℕ)
    (tempSK : DCRTPoly P) : Except String (List ℚ) :=
  (aggregateShares m_clientShares).map
    fun finalPoly => Decode libDecode finalPoly dataSize tempSK

/-- `Server::getFinalResult` in state-passing form: the server state is
the accumulator `m_clientShares`; the method body only reads it (there is
no assignment to `m_clientShares` in `aggregateShares` or
`getFinalResult`), so the state component of the result is the incoming
state. -/
def getFinalResultS (st : List (ClientShare P)) (dataSize : ℕ)
    (tempSK : DCRTPoly P) : Except String (List ℚ) × List (ClientShare P) :=
  (getFinalResult libDecode st dataSize tempSK, st)

/-- One honest protocol round (the driver of `main.cpp`): build the
public-key directory from all clients, let every client prepare its share
against that directory, collect all shares and run the server finalize. -/
def runRound (crs_a : DCRTPoly P) (sigmaCtx : ℚ) {n : ℕ}
    (cs : Fin n → ClientSpec P SK PK) (dataSize : ℕ) (tempSK : DCRTPoly P) :
    Except String (List ℚ) :=
  let dir := List.ofFn fun k => ((cs k).id, (cs k).ecdhPK)
  let shares := List.ofFn fun k =>
    prepareShareForServer ntt ecdhShared chacha encode crs_a sigmaCtx (cs k) dir
  getFinalResult libDecode shares dataSize tempSK

end Engine

/-! Concrete instances used by the witnesses. -/

/-- A tiny concrete parameter set: one tower, ring dimension 2, modulus 5. -/
def wP : RingParams := { T := 1, N := 2, q := fun _ => 5 }

/-- A concrete keystream function standing in for ChaCha20. -/
def wChacha : List ℕ → ℕ → ℕ := fun seed k => seed.foldl (· + ·) 0 + 7 * k

/-- A concrete symmetric shared-secret function standing in for ECDH
(the handle and the serialized public key of client `i` are both the
number `i`). -/
def wEcdh : ℕ → ℕ → List ℕ := fun a b => [a + b, a * b]

/-- The always-succeeding exception-aware version of `wEcdh`. -/
def wEcdhE : ℕ → ℕ → Except String (List ℕ) := fun a b => Except.ok (wEcdh a b)

/-- A concrete NTT stand-in (the identity transform). -/
def wNtt : DCRTPoly wP → DCRTPoly wP := id

/-- A concrete stand-in for the packed CKKS encoder. -/
def wEncode : List ℚ → DCRTPoly wP := fun _ => 0

/-- A concrete stand-in for the library decrypt-then-decode. -/
def wLibDecode : DCRTPoly wP → ℕ → List ℚ := fun _ _ => [0]

/-- Client ids `1, …, n` for the witnesses. -/
def wIds (n : ℕ) : Fin n → ℕ := fun k => k.val + 1

/-- Concrete witness clients: client `k` has id `k+1`, trivial key
material, the one-element data vector `[0]`, and all-zero Gaussian
draws. -/
def wCs : Fin 2 → ClientSpec wP ℕ ℕ := fun k =>
  { id := k.val + 1, ecdhSK := k.val + 1, ecdhPK := k.val + 1, data := [0],
    kgDgg := fun _ _ => 0, encDgg := fun _ _ => 0 }

/-- A concrete client whose directory will lack an expected peer. -/
def wClientMissing : ClientSpec wP ℕ ℕ :=
  { id := 1, ecdhSK := 1, ecdhPK := 1, data := [1],
    kgDgg := fun _ _ => 0, encDgg := fun _ _ => 0 }

/-- A directory for the three expected participants `1, 2, 3` that lacks
the entry of client `2`. -/
def wDirMissing : List (ℕ × ℕ) := [(1, 1), (3, 3)]

/-- A concrete share (all-one polynomials). -/
def wShareA : ClientShare wP := { c0 := fun _ _ => 1, d_masked := fun _ _ => 2 }

/-- A second concrete share. -/
def wShareB : ClientShare wP := { c0 := fun _ _ => 3, d_masked := fun _ _ => 4 }

/-- The (only) tower index of the tiny parameter set. -/
def wT0 : Fin wP.T := ⟨0, by norm_num [wP]⟩

/-- The second slot index of the tiny parameter set. -/
def wN1 : Fin wP.N := ⟨1, by norm_num [wP]⟩

/-! Helper lemmas. -/

section Theorems

variable {P : RingParams} {SK PK : Type}
variable (ntt : DCRTPoly P → DCRTPoly P)
variable (libDecode : DCRTPoly P → ℕ → List ℚ)
variable (ecdhShared : SK → PK → List ℕ) (chacha : List ℕ → ℕ → ℕ)
variable (ecdhSharedE : SK → PK → Except String (List ℕ))
variable (encode : List ℚ → DCRTPoly P)

/-- Folding a step of shape `acc + g x` from `acc` adds the mapped sum. -/
theorem foldl_stepadd {α M : Type _} [AddCommMonoid M] (g : α → M) (l : List α)
    (acc : M) : l.foldl (fun a x => a + g x) acc = acc + (l.map g).sum := by
  induction l generalizing acc with
  | nil => simp
  | cons x xs ih => simp [ih, add_assoc]

/-- `GenerateMask` equals the sum of the per-entry contributions. -/
theorem generateMask_eq_sum (myId : ℕ) (myKeys : SK) (dir : List (ℕ × PK)) :
    GenerateMask (P := P) ecdhShared chacha myId myKeys dir
      = (dir.map (maskTerm (P := P) ecdhShared chacha myId myKeys)).sum := by
  unfold GenerateMask
  rw [List.foldl_ext (g := fun acc e =>
        acc + maskTerm (P := P) ecdhShared chacha myId myKeys e)]
  · rw [foldl_stepadd, zero_add]
  · intro acc e _
    simp only [maskTerm]
    split_ifs with h1 h2
    · simp
    · rw [sub_eq_add_neg]
    · rfl

/-- Antisymmetry of the per-entry mask contribution across an unordered
pair, given that both sides derive the same pairwise secret. -/
theorem maskTerm_antisym (i j : ℕ) (ki kj : SK) (pki pkj : PK)
    (hp : ecdhShared ki pkj = ecdhShared kj pki) :
    maskTerm (P := P) ecdhShared chacha i ki (j, pkj) +
      maskTerm (P := P) ecdhShared chacha j kj (i, pki) = 0 := by
  simp only [maskTerm]
  rcases Nat.lt_trichotomy i j with h | h | h
  · rw [if_neg (by omega : ¬ i = j), if_pos h, if_neg (by omega : ¬ j = i),
      if_neg (by omega : ¬ j < i), hp, neg_add_cancel]
  · rw [if_pos h, if_pos h.symm, add_zero]
  · rw [if_neg (by omega : ¬ i = j), if_neg (by omega : ¬ i < j),
      if_neg (by omega : ¬ j = i), if_pos h, hp, add_neg_cancel]

/-- Core cancellation: over any client family whose pairwise secrets are
symmetric, the masks generated from the full directory sum to the zero
ring element. -/
theorem mask_sum_zero {n : ℕ} (ids : Fin n → ℕ) (skeys : Fin n → SK)
    (pkeys : Fin n → PK)
    (hsym : ∀ k l, ecdhShared (skeys k) (pkeys l) = ecdhShared (skeys l) (pkeys k)) :
    ∑ k : Fin n, GenerateMask (P := P) ecdhShared chacha (ids k) (skeys k)
        (List.ofFn fun l => (ids l, pkeys l)) = 0 := by
  have hmask : ∀ k, GenerateMask (P := P) ecdhShared chacha (ids k) (skeys k)
      (List.ofFn fun l => (ids l, pkeys l))
      = ∑ l : Fin n,
          maskTerm (P := P) ecdhShared chacha (ids k) (skeys k) (ids l, pkeys l) := by
    intro k
    rw [generateMask_eq_sum, List.map_ofFn, List.sum_ofFn]
    simp [Function.comp]
  calc ∑ k : Fin n, GenerateMask (P := P) ecdhShared chacha (ids k) (skeys k)
        (List.ofFn fun l => (ids l, pkeys l))
      = ∑ k : Fin n, ∑ l : Fin n,
          maskTerm (P := P) ecdhShared chacha (ids k) (skeys k) (ids l, pkeys l) :=
        Finset.sum_congr rfl fun k _ => hmask k
    _ = ∑ x : Fin n × Fin n,
          maskTerm (P := P) ecdhShared chacha (ids x.1) (skeys x.1)
            (ids x.2, pkeys x.2) := by
        rw [Fintype.sum_prod_type]
    _ = 0 := by
        refine Finset.sum_ninvolution Prod.swap ?_ ?_
          (fun x => Finset.mem_univ _) (fun x => Prod.swap_swap x)
        · intro x
          exact maskTerm_antisym ecdhShared chacha _ _ _ _ _ _ (hsym x.1 x.2)
        · intro x hfx heq
          apply hfx
          have h21 : x.2 = x.1 := by
            have := congrArg Prod.fst heq
            simpa using this
          simp [maskTerm, h21]


/-- One aggregation step: `aggregateShares` of a non-empty list is the sum
of all `c0` components plus the sum of all `d_masked` components. -/
theorem aggregateShares_cons (s0 : ClientShare P) (rest : List (ClientShare P)) :
    aggregateShares (s0 :: rest)
      = Except.ok (((s0 :: rest).map ClientShare.c0).sum
          + ((s0 :: rest).map ClientShare.d_masked).sum) := by
  simp only [aggregateShares, List.map_cons, List.sum_cons]
  rw [foldl_stepadd ClientShare.c0, foldl_stepadd ClientShare.d_masked]

/-- `aggregateShares` on any non-empty accumulator. -/
theorem aggregateShares_ne_nil (l : List (ClientShare P)) (h : l ≠ []) :
    aggregateShares l
      = Except.ok ((l.map ClientShare.c0).sum + (l.map ClientShare.d_masked).sum) := by
  cases l with
  | nil => exact absurd rfl h
  | cons s0 rest => exact aggregateShares_cons s0 rest

/-- The sum of the two components of a prepared share decomposes as
encoded plaintext + overall noise + mask. -/
theorem prepareShare_decomp (crs_a : DCRTPoly P) (sigmaCtx : ℚ)
    (c : ClientSpec P SK PK) (dir : List (ℕ × PK)) :
    (prepareShareForServer ntt ecdhShared chacha encode crs_a sigmaCtx c dir).c0 +
      (prepareShareForServer ntt ecdhShared chacha encode crs_a sigmaCtx c dir).d_masked
      = encode c.data + clientNoise sigmaCtx c +
          GenerateMask (P := P) ecdhShared chacha c.id c.ecdhSK dir := by
  simp only [prepareShareForServer, Encrypt, KeyGenSingle, toEval, clientNoise]
  ring

/-- Exception-aware mask generation agrees with the pure one whenever
every entry actually present in the directory yields its pairwise secret
successfully. -/
theorem generateMaskE_ok (myId : ℕ) (myKeys : SK) :
    ∀ (dir : List (ℕ × PK)) (acc : DCRTPoly P),
      (∀ e ∈ dir, ecdhSharedE myKeys e.2 = Except.ok (ecdhShared myKeys e.2)) →
      GenerateMaskE (P := P) chacha ecdhSharedE myId myKeys dir acc
        = Except.ok (acc +
            (dir.map (maskTerm (P := P) ecdhShared chacha myId myKeys)).sum) := by
  intro dir
  induction dir with
  | nil => intro acc _; simp [GenerateMaskE]
  | cons e rest ih =>
    intro acc hvalid
    have he := hvalid e (by simp)
    have hrest : ∀ e' ∈ rest, ecdhSharedE myKeys e'.2
        = Except.ok (ecdhShared myKeys e'.2) :=
      fun e' h' => hvalid e' (by simp [h'])
    by_cases h1 : myId = e.1
    · rw [GenerateMaskE, if_pos h1, ih acc hrest]
      simp [maskTerm, h1]
    · rw [GenerateMaskE, if_neg h1, he]
      dsimp only
      by_cases h2 : myId < e.1
      · rw [if_pos h2, ih _ hrest]
        simp [maskTerm, h1, h2, sub_eq_add_neg, add_assoc]
      · rw [if_neg h2, ih _ hrest]
        simp [maskTerm, h1, h2, add_assoc]

/-! Claim theorems. -/

/-- Claim C2: for every set of `n ≥ 1` clients with distinct IDs, each
holding a valid ECDH key pair (so pairwise secret derivation is
symmetric), and a complete public-key directory covering all `n` clients,
the sum over all clients of `GenerateMask` is exactly the zero element of
the ring — every coefficient zero in every RNS tower. -/
theorem claim_mask_cancellation {n : ℕ} (ids : Fin n → ℕ) (skeys : Fin n → SK)
    (pkeys : Fin n → PK) (hn : 1 ≤ n)
    (hinj : ∀ k l, ids k = ids l → k = l)
    (hsym : ∀ k l, ecdhShared (skeys k) (pkeys l) = ecdhShared (skeys l) (pkeys k)) :
    ∑ k : Fin n, GenerateMask (P := P) ecdhShared chacha (ids k) (skeys k)
        (List.ofFn fun l => (ids l, pkeys l)) = 0 :=
  mask_sum_zero ecdhShared chacha ids skeys pkeys hsym

/-- Claim C5: for every client (index `k0`, keys `myKeys`) with a complete
directory, `GenerateMask` returns the sum over peers with larger id of the
negated PRG expansion of the pairwise secret plus the sum over peers with
smaller id of the PRG expansion: the smaller ID subtracts `p_ij`, the
larger adds it, and entries with equal id contribute nothing. -/
theorem claim_antisymmetric_sign_rule {n : ℕ} (ids : Fin n → ℕ)
    (pkeys : Fin n → PK) (k0 : Fin n) (myKeys : SK) :
    GenerateMask (P := P) ecdhShared chacha (ids k0) myKeys
        (List.ofFn fun l => (ids l, pkeys l)) =
      (∑ l ∈ Finset.univ.filter (fun l => ids k0 < ids l),
        -PRGToDCRTPoly (P := P) chacha (ecdhShared myKeys (pkeys l))) +
      (∑ l ∈ Finset.univ.filter (fun l => ids l < ids k0),
        PRGToDCRTPoly (P := P) chacha (ecdhShared myKeys (pkeys l))) := by
  rw [generateMask_eq_sum, List.map_ofFn, List.sum_ofFn,
    Finset.sum_filter, Finset.sum_filter, ← Finset.sum_add_distrib]
  refine Finset.sum_congr rfl fun l _ => ?_
  simp only [Function.comp, maskTerm]
  rcases Nat.lt_trichotomy (ids k0) (ids l) with h | h | h
  · rw [if_neg (by omega : ¬ ids k0 = ids l), if_pos h, if_pos h,
      if_neg (by omega : ¬ ids l < ids k0), add_zero]
  · rw [if_pos h, if_neg (by omega : ¬ ids k0 < ids l),
      if_neg (by omega : ¬ ids l < ids k0), add_zero]
  · rw [if_neg (by omega : ¬ ids k0 = ids l), if_neg (by omega : ¬ ids k0 < ids l),
      if_neg (by omega : ¬ ids k0 < ids l), if_pos h, zero_add]

/-- Claim C8: for every seed and parameter set with positive tower moduli,
every coefficient of every RNS tower of `PRGToDCRTPoly`'s result is
strictly below that tower's modulus, because each 64-bit keystream word is
reduced modulo `q t` before being stored. -/
theorem claim_prg_coeff_range (seed : List ℕ) (t : Fin P.T) (j : Fin P.N)
    (hq : 0 < P.q t) :
    PRGCoeff (P := P) chacha seed t j < P.q t ∧
      (PRGToDCRTPoly (P := P) chacha seed t j).val
        = PRGCoeff (P := P) chacha seed t j := by
  have hlt : PRGCoeff (P := P) chacha seed t j < P.q t := Nat.mod_lt _ hq
  haveI : NeZero (P.q t) := ⟨hq.ne'⟩
  exact ⟨hlt, ZMod.val_cast_of_lt hlt⟩

/-- Claim C3: `Encrypt` samples `v`, `e0`, `e1` from the context CKKS
Gaussian and the smudging noise from a Gaussian of standard deviation 4.0
(larger than the default keygen noise), converts `m` to NTT form exactly
when it is in coefficient form, and returns `c0 = v*b + m + e0` paired
with the decryption share `d = (v*a + e1)*s + e_star` rather than the raw
second ciphertext component. -/
theorem claim_encrypt_fused (pk : MKeyGenPublicKey P) (sk : MKeyGenSecretKey P)
    (m : FPoly P) (sigmaCtx : ℚ) (dgg : ℚ → ℕ → DCRTPoly P) (x : DCRTPoly P) :
    Encrypt ntt pk sk m sigmaCtx dgg =
      { c0 := dgg sigmaCtx 0 * pk.b + toEval ntt m + dgg sigmaCtx 1,
        c1 := (dgg sigmaCtx 0 * pk.a + dgg sigmaCtx 2) * sk.s
          + dgg smudgingSigma 3 } ∧
    smudgingSigma = 4 ∧ ckksDefaultSigma < smudgingSigma ∧
    toEval ntt { fmt := PolyFormat.COEFFICIENT, val := x } = ntt x ∧
    toEval ntt { fmt := PolyFormat.EVALUATION, val := x } = x :=
  ⟨rfl, rfl, by norm_num [ckksDefaultSigma, smudgingSigma], rfl, rfl⟩

/-- Claim C9: `Decode` is independent of the internal key choice: for any
two secrets the library keygen could produce, the decoded vector is the
same, because the second ciphertext slot is the zero polynomial and
decryption of `(P, 0)` is a pure decode of `P`. -/
theorem claim_decode_key_independent (finalPoly : DCRTPoly P) (dataSize : ℕ)
    (sk1 sk2 : DCRTPoly P) :
    Decode libDecode finalPoly dataSize sk1 = Decode libDecode finalPoly dataSize sk2 := by
  simp [Decode]

/-- Claim C10: the finalize path only reads the accumulator and leaves it
unchanged, so a second finalize call on the resulting state returns the
same outcome as the first. -/
theorem claim_finalize_frame (st : List (ClientShare P)) (dataSize : ℕ)
    (tempSK : DCRTPoly P) :
    (getFinalResultS libDecode st dataSize tempSK).2 = st ∧
    getFinalResultS libDecode (getFinalResultS libDecode st dataSize tempSK).2
        dataSize tempSK
      = getFinalResultS libDecode st dataSize tempSK :=
  ⟨rfl, rfl⟩

/-- Claim C4: `getFinalResult` fails (with the aggregation error) exactly
when the accumulator is empty; on a non-empty accumulator it returns the
decode of `C0 + D`, where `C0` is the sum of all collected `c0` and `D`
the sum of all collected `d_masked`. -/
theorem claim_finalize_spec (shares : List (ClientShare P)) (s0 : ClientShare P)
    (rest : List (ClientShare P)) (dataSize : ℕ) (tempSK : DCRTPoly P) :
    (getFinalResult libDecode shares dataSize tempSK
        = Except.error "No client shares to aggregate." ↔ shares = []) ∧
    getFinalResult libDecode (s0 :: rest) dataSize tempSK
      = Except.ok (Decode libDecode
          (((s0 :: rest).map ClientShare.c0).sum
            + ((s0 :: rest).map ClientShare.d_masked).sum) dataSize tempSK) := by
  constructor
  · cases shares with
    | nil => simp [getFinalResult, aggregateShares, Except.map]
    | cons a l => simp [getFinalResult, aggregateShares_cons, Except.map]
  · simp [getFinalResult, aggregateShares_cons, Except.map]

/-- Claim C6: aggregation is order independent: permuting the multiset of
collected shares leaves the result of `aggregateShares` bit-exact
unchanged (including the empty-accumulator failure case). -/
theorem claim_order_independence (l1 l2 : List (ClientShare P)) (h : l1.Perm l2) :
    aggregateShares l1 = aggregateShares l2 := by
  cases l1 with
  | nil =>
    have h2 : l2 = [] := List.Perm.eq_nil h.symm
    rw [h2]
  | cons a l =>
    have h2 : l2 ≠ [] := by
      intro hnil
      rw [hnil] at h
      exact absurd (List.Perm.eq_nil h) (by simp)
    rw [aggregateShares_ne_nil _ (by simp), aggregateShares_ne_nil _ h2,
      (h.map ClientShare.c0).sum_eq, (h.map ClientShare.d_masked).sum_eq]

/-- Claim C7 (amended): `prepareShareForServer` performs no
directory-completeness check.  Whenever every entry actually present in
the directory deserializes and derives its pairwise secret successfully,
the call returns a share — whose mask is computed over exactly the
entries present — even if the directory lacks expected participants; no
missing-peer failure exists on this path. -/
theorem claim_missing_peer_amended (crs_a : DCRTPoly P) (sigmaCtx : ℚ)
    (c : ClientSpec P SK PK) (dir : List (ℕ × PK))
    (hvalid : ∀ e ∈ dir, ecdhSharedE c.ecdhSK e.2
      = Except.ok (ecdhShared c.ecdhSK e.2)) :
    prepareShareForServerE ntt chacha ecdhSharedE encode crs_a sigmaCtx c dir
      = Except.ok (prepareShareForServer ntt ecdhShared chacha encode
          crs_a sigmaCtx c dir) := by
  simp only [prepareShareForServerE, prepareShareForServer]
  rw [generateMaskE_ok ecdhShared chacha ecdhSharedE c.id c.ecdhSK dir 0 hvalid,
    generateMask_eq_sum, zero_add]
  rfl

/-- Claim C1: end-to-end correctness of an honest round with `n ≥ 2`
clients, data length at most `N/2`, distinct ids and symmetric ECDH.  The
aggregated polynomial equals the sum of the encoded inputs plus the total
(mask-free) noise, so whenever the external decoder is `eps`-accurate on
that polynomial, the vector finalize returns differs from the elementwise
sum of the inputs by less than `eps` in the infinity norm. -/
theorem claim_end_to_end {n : ℕ} (cs : Fin n → ClientSpec P SK PK)
    (crs_a : DCRTPoly P) (sigmaCtx : ℚ) (dataSize : ℕ) (tempSK : DCRTPoly P)
    (eps : ℚ) (hn : 2 ≤ n)
    (hids : ∀ k l, (cs k).id = (cs l).id → k = l)
    (hsym : ∀ k l, ecdhShared (cs k).ecdhSK (cs l).ecdhPK
      = ecdhShared (cs l).ecdhSK (cs k).ecdhPK)
    (hlen : ∀ k, ((cs k).data).length = dataSize)
    (hdim : dataSize ≤ P.N / 2)
    (hdec : linfDist
        (libDecode ((∑ k, encode (cs k).data)
          + ∑ k, clientNoise sigmaCtx (cs k)) dataSize)
        (sumVecs dataSize (List.ofFn fun k => (cs k).data)) < eps) :
    runRound ntt libDecode ecdhShared chacha encode crs_a sigmaCtx cs dataSize tempSK
      = Except.ok (libDecode ((∑ k, encode (cs k).data)
          + ∑ k, clientNoise sigmaCtx (cs k)) dataSize) ∧
    linfDist
        (libDecode ((∑ k, encode (cs k).data)
          + ∑ k, clientNoise sigmaCtx (cs k)) dataSize)
        (sumVecs dataSize (List.ofFn fun k => (cs k).data)) < eps := by
  refine ⟨?_, hdec⟩
  unfold runRound
  have hne : (List.ofFn fun k =>
      prepareShareForServer ntt ecdhShared chacha encode crs_a sigmaCtx (cs k)
        (List.ofFn fun l => ((cs l).id, (cs l).ecdhPK))) ≠ [] := by
    rw [Ne, List.ofFn_eq_nil_iff]
    omega
  rw [getFinalResult, aggregateShares_ne_nil _ hne]
  have hsum : ((List.ofFn fun k =>
        prepareShareForServer ntt ecdhShared chacha encode crs_a sigmaCtx (cs k)
          (List.ofFn fun l => ((cs l).id, (cs l).ecdhPK))).map ClientShare.c0).sum
      + ((List.ofFn fun k =>
        prepareShareForServer ntt ecdhShared chacha encode crs_a sigmaCtx (cs k)
          (List.ofFn fun l => ((cs l).id, (cs l).ecdhPK))).map ClientShare.d_masked).sum
      = (∑ k, encode (cs k).data) + ∑ k, clientNoise sigmaCtx (cs k) := by
    rw [List.map_ofFn, List.map_ofFn, List.sum_ofFn, List.sum_ofFn,
      ← Finset.sum_add_distrib]
    have hterm : ∀ k : Fin n,
        (prepareShareForServer ntt ecdhShared chacha encode crs_a sigmaCtx (cs k)
          (List.ofFn fun l => ((cs l).id, (cs l).ecdhPK))).c0
        + (prepareShareForServer ntt ecdhShared chacha encode crs_a sigmaCtx (cs k)
          (List.ofFn fun l => ((cs l).id, (cs l).ecdhPK))).d_masked
        = encode (cs k).data + clientNoise sigmaCtx (cs k)
          + GenerateMask (P := P) ecdhShared chacha (cs k).id (cs k).ecdhSK
              (List.ofFn fun l => ((cs l).id, (cs l).ecdhPK)) := fun k =>
      prepareShare_decomp ntt ecdhShared chacha encode crs_a sigmaCtx (cs k) _
    calc ∑ k, ((prepareShareForServer ntt ecdhShared chacha encode crs_a sigmaCtx
            (cs k) (List.ofFn fun l => ((cs l).id, (cs l).ecdhPK))).c0
          + (prepareShareForServer ntt ecdhShared chacha encode crs_a sigmaCtx
            (cs k) (List.ofFn fun l => ((cs l).id, (cs l).ecdhPK))).d_masked)
        = ∑ k, (encode (cs k).data + clientNoise sigmaCtx (cs k)
            + GenerateMask (P := P) ecdhShared chacha (cs k).id (cs k).ecdhSK
                (List.ofFn fun l => ((cs l).id, (cs l).ecdhPK))) :=
          Finset.sum_congr rfl fun k _ => hterm k
      _ = ((∑ k, encode (cs k).data) + ∑ k, clientNoise sigmaCtx (cs k))
            + ∑ k : Fin n, GenerateMask (P := P) ecdhShared chacha (cs k).id
                (cs k).ecdhSK (List.ofFn fun l => ((cs l).id, (cs l).ecdhPK)) := by
          rw [Finset.sum_add_distrib, Finset.sum_add_distrib]
      _ = (∑ k, encode (cs k).data) + ∑ k, clientNoise sigmaCtx (cs k) := by
          rw [mask_sum_zero ecdhShared chacha (fun k => (cs k).id)
            (fun k => (cs k).ecdhSK) (fun k => (cs k).ecdhPK) hsym, add_zero]
  rw [hsum]
  simp [Decode, Except.map]

/-! Witnesses and counterexample. -/

/-- Witness for C1: a concrete two-client round with the tiny parameter
set, trivial stand-ins for the external primitives and all-zero noise
draws; the hypotheses of the end-to-end theorem hold by computation. -/
theorem claim_end_to_end_witness :
    runRound wNtt wLibDecode wEcdh wChacha wEncode (0 : DCRTPoly wP)
        ckksDefaultSigma wCs 1 0
      = Except.ok (wLibDecode ((∑ k : Fin 2, wEncode (wCs k).data)
          + ∑ k : Fin 2, clientNoise ckksDefaultSigma (wCs k)) 1) ∧
    linfDist
        (wLibDecode ((∑ k : Fin 2, wEncode (wCs k).data)
          + ∑ k : Fin 2, clientNoise ckksDefaultSigma (wCs k)) 1)
        (sumVecs 1 (List.ofFn fun k : Fin 2 => (wCs k).data)) < 1 :=
  claim_end_to_end wNtt wLibDecode wEcdh wChacha wEncode wCs 0 ckksDefaultSigma 1 0 1
    (by decide) (by decide) (by decide) (by decide) (by decide)
    (by norm_num [linfDist, sumVecs, wLibDecode, wCs, List.ofFn_succ, List.replicate])

/-- Witness for C2: three concrete clients with ids 1, 2, 3; the mask sum
is the zero ring element. -/
theorem claim_mask_cancellation_witness :
    ∑ k : Fin 3, GenerateMask (P := wP) wEcdh wChacha (wIds 3 k) (wIds 3 k)
        (List.ofFn fun l => (wIds 3 l, wIds 3 l)) = 0 :=
  claim_mask_cancellation wEcdh wChacha (wIds 3) (wIds 3) (wIds 3)
    (by decide) (by decide) (by decide)

/-- Witness for C6: swapping two concrete shares leaves the aggregate
unchanged. -/
theorem claim_order_independence_witness :
    aggregateShares [wShareA, wShareB] = aggregateShares [wShareB, wShareA] :=
  claim_order_independence [wShareA, wShareB] [wShareB, wShareA]
    (List.Perm.swap wShareB wShareA [])

/-- Witness for C8: a concrete seed, tower and slot of the tiny parameter
set. -/
theorem claim_prg_coeff_range_witness :
    PRGCoeff (P := wP) wChacha [1, 2] wT0 wN1 < wP.q wT0 ∧
      (PRGToDCRTPoly (P := wP) wChacha [1, 2] wT0 wN1).val
        = PRGCoeff (P := wP) wChacha [1, 2] wT0 wN1 :=
  claim_prg_coeff_range wChacha [1, 2] wT0 wN1 (by decide)

/-- Counterexample for C7 as stated: the directory for expected
participants 1, 2, 3 lacks client 2's entry, yet client 1's
prepare-share succeeds instead of failing with a missing-peer error. -/
theorem claim_missing_peer_counterexample :
    exceptIsOk (prepareShareForServerE wNtt wChacha wEcdhE wEncode
        (0 : DCRTPoly wP) ckksDefaultSigma wClientMissing wDirMissing) = true ∧
    wDirMissing.lookup 2 = none :=
  ⟨rfl, rfl⟩

/-- Witness for the amended C7: on the concrete incomplete directory with
all present entries valid, prepare-share returns exactly the pure share. -/
theorem claim_missing_peer_amended_witness :
    prepareShareForServerE wNtt wChacha wEcdhE wEncode (0 : DCRTPoly wP)
        ckksDefaultSigma wClientMissing wDirMissing
      = Except.ok (prepareShareForServer wNtt wEcdh wChacha wEncode
          (0 : DCRTPoly wP) ckksDefaultSigma wClientMissing wDirMissing) :=
  claim_missing_peer_amended wNtt wEcdh wChacha wEcdhE wEncode 0 ckksDefaultSigma
    wClientMissing wDirMissing (fun e _ => rfl)

end Theorems

end SecureFL
